import Mathlib

/-!
# Verification of the Obsidian management server's graph/search subsystem

This file gives a shallow embedding, in Lean 4, of the knowledge-graph and
search subsystem of `src/multimedia/obsidian_server.py`:

* the ranked search endpoint `search_notes` (content / title / tags /
  backlinks modes, regex-based match counting, stable descending sort,
  truncation to the requested limit);
* the graph endpoint `generate_graph` (per-document node creation, `[[...]]`
  link extraction with alias stripping, tag nodes, and the recursive
  depth-limited `traverse` filter).

Documents are modelled as records carrying the data the Python code reads
from disk: the file stem (`name`), the raw text (`content`), the tag list the
frontmatter parser would return (`post.metadata.get('tags', [])`), and an
`ok` flag modelling the per-file `try/except` (files whose read or parse
raises are skipped).

Python's `re` module is embedded for the fragment actually exercised by the
theorems below: patterns made of literal characters and the `.` wildcard
(which matches any character except a newline).  `re.findall(p, s, IGNORECASE)`
for such fixed-width patterns scans left to right, counting non-overlapping
matches and advancing past each match; an empty pattern matches `len(s) + 1`
times.  Queries containing other regex metacharacters fall outside the
fragment (`parseRe` returns `none`); no theorem below evaluates the count of
such a query, and universal statements about counts either hold for every
count value or carry a `metaFree` hypothesis.
-/

/-- The characters Python's `str.strip()` removes (default whitespace set). -/
def pyIsSpace (c : Char) : Bool :=
  c = ' ' || c = '\t' || c = '\n' || c = '\r' || c = '\x0b' || c = '\x0c'

/-- Python `str.lower()` applied characterwise, modelled with `Char.toLower`. -/
def lowerL (cs : List Char) : List Char := cs.map Char.toLower

/-- Prefix test on character lists (Python `str.startswith`). -/
def isPref : List Char → List Char → Bool
  | [], _ => true
  | _ :: _, [] => false
  | a :: as, b :: bs => a == b && isPref as bs

/-- Python's substring test `needle in hay` on character lists. -/
def containsSub (needle : List Char) : List Char → Bool
  | [] => needle.isEmpty
  | c :: rest => isPref needle (c :: rest) || containsSub needle rest

/-- Python `s.split('|')[0]`: the characters before the first `'|'`. -/
def splitBarFirst (cs : List Char) : List Char :=
  cs.takeWhile (fun c => c ≠ '|')

/-- Python `str.strip()`: drop leading and trailing whitespace. -/
def pyStrip (cs : List Char) : List Char :=
  ((cs.dropWhile pyIsSpace).reverse.dropWhile pyIsSpace).reverse

/-- The link-cleaning step of `generate_graph`:
`clean_link = link.split('|')[0].strip()`. -/
def cleanLink (link : String) : String :=
  ⟨pyStrip (splitBarFirst link.data)⟩

/-- The destination identifier exactly as the specification words it:
"split on the first `|` to drop an alias and keep the canonical target" —
with no whitespace stripping.  Used to compare the spec's description with
the code's `cleanLink`. -/
def specCleanLink (link : String) : String :=
  ⟨splitBarFirst link.data⟩

/-! ## A fragment of Python regular expressions

`search_notes` evaluates `re.findall(request.query, content, re.IGNORECASE)`
and `re.search` on the interpolated backlink pattern, treating the query
as a regular expression.  The fragment below covers patterns built from
literal characters and the `.` wildcard. -/

/-- One token of a fixed-width regex: a literal character or the `.`
wildcard (which matches any character except `'\n'`). -/
inductive RTok where
  | lit : Char → RTok
  | dot : RTok
  deriving DecidableEq, Repr

/-- Regex metacharacters of Python's `re` other than `.`; a query containing
one of these is outside the embedded fragment. -/
def isSpecialCh (c : Char) : Bool :=
  c = '^' || c = '$' || c = '*' || c = '+' || c = '?' || c = '\x7b' ||
  c = '\x7d' || c = '[' || c = ']' || c = '\\' || c = '|' || c = '(' || c = ')'

/-- Parse a query into the embedded regex fragment: `.` becomes the
wildcard, ordinary characters become literals, any other metacharacter
aborts the parse. -/
def parseRe : List Char → Option (List RTok)
  | [] => some []
  | c :: rest =>
    if isSpecialCh c then none
    else
      match parseRe rest with
      | none => none
      | some ts => some ((if c = '.' then RTok.dot else RTok.lit c) :: ts)

/-- A query whose characters are all regex-literal (no metacharacter, not
even `.`). -/
def metaFree (q : String) : Bool :=
  q.data.all (fun c => !isSpecialCh c && c ≠ '.')

/-- Match a fixed-width pattern at the head of the input, returning the rest
of the input on success.  `ci` selects `re.IGNORECASE` comparison. -/
def matchPat (ci : Bool) : List RTok → List Char → Option (List Char)
  | [], cs => some cs
  | _ :: _, [] => none
  | t :: ts, c :: cs =>
    match t with
    | RTok.dot => if c = '\n' then none else matchPat ci ts cs
    | RTok.lit l =>
      if (if ci then l.toLower = c.toLower else l = c) then matchPat ci ts cs
      else none

/-- Fuel-indexed scanner counting non-overlapping matches of a non-empty
fixed-width pattern, advancing past each match and by one character after a
failed attempt, exactly as `re.findall` does for such patterns.  The fuel is
always instantiated with the length of the scanned text. -/
def reGo (ci : Bool) (pat : List RTok) : Nat → List Char → Nat
  | 0, _ => 0
  | _ + 1, [] => 0
  | fuel + 1, c :: rest =>
    match matchPat ci pat (c :: rest) with
    | some rest' => 1 + reGo ci pat fuel rest'
    | none => reGo ci pat fuel rest

/-- The value `len(re.findall(q, s, re.IGNORECASE))` for queries inside the embedded
fragment; queries outside the fragment are given count `0` (no theorem below
depends on the count of such a query).  An empty pattern matches
`len(s) + 1` times, as in Python. -/
def reCountI (q s : String) : Nat :=
  match parseRe q.data with
  | none => 0
  | some [] => s.data.length + 1
  | some pat => reGo true pat s.data.length s.data

/-- Fuel-indexed counter of non-overlapping occurrences of a non-empty
literal needle, the specification's notion of "occurrences of the literal
query string". -/
def litGo (needle : List Char) : Nat → List Char → Nat
  | 0, _ => 0
  | _ + 1, [] => 0
  | fuel + 1, c :: rest =>
    if isPref needle (c :: rest) then
      1 + litGo needle fuel ((c :: rest).drop needle.length)
    else litGo needle fuel rest

/-- Number of case-insensitive occurrences of the literal string `q` in `s`
(non-overlapping, scanning left to right; the empty string occurs
`len(s) + 1` times, matching Python's `str.count`).  This is the
specification's description of the reported match count. -/
def litCountI (q s : String) : Nat :=
  match lowerL q.data with
  | [] => s.data.length + 1
  | needle => litGo needle s.data.length (lowerL s.data)

/-- After the query part of a backlink pattern has matched, scan for a
closing `]]` with no intervening newline (the `.*?\]\]` tail of the
pattern). -/
def blClose : List Char → Bool
  | ']' :: ']' :: _ => true
  | '\n' :: _ => false
  | _ :: rest => blClose rest
  | [] => false

/-- Try the backlink pattern `\[\[query.*?\]\]` at the head of the input. -/
def blTry (pat : List RTok) (cs : List Char) : Bool :=
  match cs with
  | '[' :: '[' :: rest =>
    match matchPat false pat rest with
    | some rest' => blClose rest'
    | none => false
  | _ => false

/-- The test `re.search` of the interpolated backlink pattern viewed as a Boolean: does
the pattern match anywhere in the input?  (Case-sensitive: the backlinks
branch passes no `re.IGNORECASE` flag.) -/
def blSearch (pat : List RTok) : List Char → Bool
  | [] => false
  | c :: rest => blTry pat (c :: rest) || blSearch pat rest

/-- The backlinks-mode match decision of `search_notes`: the query is
interpolated into the pattern `\[\[query.*?\]\]`; queries outside the
embedded regex fragment are treated as non-matching. -/
def blMatch (q content : String) : Bool :=
  match parseRe q.data with
  | none => false
  | some pat => blSearch pat content.data

/-! ## Documents and the search endpoint (`search_notes`) -/

/-- A document as the scan sees it: `name` is the file stem, `content` the
raw text, `tags` the list the frontmatter parser yields
(`post.metadata.get('tags', [])`), and `ok` models the per-file
`try/except`: a document whose read or parse raises is skipped.  A corpus is
the list of documents in `os.walk` discovery order (already restricted to
`.md` files, the excluded vault and the requested folder, which only select
which documents appear). -/
structure Doc where
  name : String
  content : String
  tags : List String
  ok : Bool
  deriving DecidableEq, Repr

/-- A search request: `query`, optional explicit `tags` list, result
`limit`, and the mode string `search_type` (unvalidated, as in the pydantic
model). -/
structure SearchReq where
  query : String
  tags : Option (List String)
  limit : Nat
  search_type : String
  deriving DecidableEq, Repr

/-- Python `request.tags or [request.query]`: `None` and the empty list are
falsy, so both fall back to the singleton query. -/
def effTags (req : SearchReq) : List String :=
  match req.tags with
  | none => [req.query]
  | some [] => [req.query]
  | some ts => ts

/-- The per-document match decision of `search_notes`.  An unknown
`search_type` leaves Python's `match = False` untouched, so no document
matches. -/
def docMatch (req : SearchReq) (d : Doc) : Bool :=
  if req.search_type == "content" then
    containsSub (lowerL req.query.data) (lowerL d.content.data)
  else if req.search_type == "title" then
    containsSub (lowerL req.query.data) (lowerL (d.name ++ ".md").data)
  else if req.search_type == "tags" then
    (effTags req).any (fun t => d.tags.contains t)
  else if req.search_type == "backlinks" then
    blMatch req.query d.content
  else false

/-- The fields of a result record used by the ranking: the title
(`file_path.stem`) and the count stored under the `'matches'` key
(`len(re.findall(query, content, re.IGNORECASE))`, computed identically in
every search mode); `matches` is reserved in Lean, hence `matchCount`. -/
structure SearchResult where
  title : String
  matchCount : Nat
  deriving DecidableEq, Repr

/-- Build the result record appended for a matched document. -/
def mkResult (q : String) (d : Doc) : SearchResult :=
  ⟨d.name, reCountI q d.content⟩

/-- The unsorted result list: matched, successfully scanned documents in
discovery order. -/
def rawResults (req : SearchReq) (corpus : List Doc) : List SearchResult :=
  ((corpus.filter (fun d => d.ok)).filter (fun d => docMatch req d)).map
    (mkResult req.query)

/-- Insert into a list sorted by non-increasing `matchCount`, before the first
element with a smaller-or-equal count; together with `pySortDesc` this is
the unique stable descending sort, hence extensionally
`results.sort(key=..., reverse=True)` (Python's sort is stable). -/
def insertDesc (x : SearchResult) : List SearchResult → List SearchResult
  | [] => [x]
  | y :: ys => if y.matchCount ≤ x.matchCount then x :: y :: ys else y :: insertDesc x ys

/-- Stable sort by non-increasing `matchCount`, modelling
`results.sort(key=lambda x: x['matches'], reverse=True)`. -/
def pySortDesc : List SearchResult → List SearchResult
  | [] => []
  | x :: xs => insertDesc x (pySortDesc xs)

/-- The JSON body returned by a successful search: the echoed query, the
pre-truncation result count (`len(results)`), and the truncated list
(`results[:limit]`). -/
structure SearchResponse where
  query : String
  count : Nat
  results : List SearchResult
  deriving DecidableEq, Repr

/-- Outcome of a request: a normal JSON body, or an `HTTPException` with a
status code and detail string. -/
inductive SearchOut where
  | ok : SearchResponse → SearchOut
  | err : Nat → String → SearchOut
  deriving DecidableEq, Repr

/-- Whether a search outcome is a normal (non-error) response. -/
def isOk : SearchOut → Bool
  | .ok _ => true
  | .err _ _ => false

/-- The `search_notes` endpoint: scan, match, count, stable-sort descending
by `matches`, truncate to `limit`.  No branch of the handler raises for an
unknown `search_type`, so the outcome is always a normal response. -/
def searchNotes (req : SearchReq) (corpus : List Doc) : SearchOut :=
  let rs := rawResults req corpus
  .ok ⟨req.query, rs.length, (pySortDesc rs).take req.limit⟩

/-! ## Link extraction (`re.findall(r'\[\[(.*?)\]\]', content)`) -/

/-- Scan for the closing `]]` of a link opened by `[[`: the lazy inner group
`(.*?)` matches any characters except newline, so the attempt fails on a
newline or at end of input and otherwise captures up to the nearest `]]`.
Returns the captured inner text and the remainder after the `]]`. -/
def findClose : List Char → Option (List Char × List Char)
  | ']' :: ']' :: rest => some ([], rest)
  | '\n' :: _ => none
  | c :: rest =>
    match findClose rest with
    | some (inner, r) => some (c :: inner, r)
    | none => none
  | [] => none

/-- Fuel-indexed scanner for all matches of `\[\[(.*?)\]\]`: at each
position try to match `[[` followed by a lazily closed `]]`; on success emit
the captured text and continue after the match, otherwise advance one
character.  The fuel is instantiated with the length of the text. -/
def scanGo : Nat → List Char → List String
  | 0, _ => []
  | _ + 1, [] => []
  | fuel + 1, '[' :: '[' :: rest2 =>
    match findClose rest2 with
    | some (inner, r) => (⟨inner⟩ : String) :: scanGo fuel r
    | none => scanGo fuel ('[' :: rest2)
  | fuel + 1, _ :: rest => scanGo fuel rest

/-- All captured `[[...]]` inner texts of a document body, in order, with
duplicates retained: `re.findall(r'\[\[(.*?)\]\]', content)`. -/
def extractLinks (s : String) : List String :=
  scanGo s.data.length s.data

/-! ## The graph endpoint (`generate_graph`) -/

/-- A graph node.  Note nodes carry the document's tag list and
`size = len(content)`; tag nodes have `size = 1` and (in the Python record)
no tag list, modelled here as `[]`.  The `label` and `path` fields of the
Python records are determined by `id` and the scan and are not modelled. -/
structure GNode where
  id : String
  tags : List String
  size : Nat
  ty : String
  deriving DecidableEq, Repr

/-- A directed edge record: `source`, `target` and its kind
(`'link'` or `'tag'`). -/
structure GEdge where
  source : String
  target : String
  ty : String
  deriving DecidableEq, Repr

/-- The node created for a scanned document. -/
def noteNode (d : Doc) : GNode :=
  ⟨d.name, d.tags, d.content.length, "note"⟩

/-- The node created for a tag. -/
def tagNode (t : String) : GNode :=
  ⟨t, [], 1, "tag"⟩

/-- Key membership in an association list modelling the `nodes` dict. -/
def hasKey (m : List (String × GNode)) (k : String) : Bool :=
  m.any (fun p => p.1 == k)

/-- Lookup in the association list (first, hence unique, binding). -/
def lookupA (m : List (String × GNode)) (k : String) : Option GNode :=
  match m with
  | [] => none
  | p :: rest => if p.1 == k then some p.2 else lookupA rest k

/-- Python dict assignment `m[k] = v`: replace in place if the key exists
(keeping its insertion position), otherwise append. -/
def upsert (m : List (String × GNode)) (k : String) (v : GNode) : List (String × GNode) :=
  match m with
  | [] => [(k, v)]
  | p :: rest => if p.1 == k then (k, v) :: rest else p :: upsert rest k v

/-- The node created for a tag association when its identifier is not yet a
key, plus the unconditional `tag` edge. -/
def addTag (name : String) (st : List (String × GNode) × List GEdge) (t : String) :
    List (String × GNode) × List GEdge :=
  (if hasKey st.1 t then st.1 else st.1 ++ [(t, tagNode t)],
   st.2 ++ [⟨name, t, "tag"⟩])

/-- Process one scanned file of the graph build: skip it if its read or
parse raised; otherwise assign its note node (`nodes[note_name] = ...`),
append one `link` edge per extracted `[[...]]` occurrence (target cleaned by
`cleanLink`), and, when tag nodes are requested, process its tags.
`linkEdges` is the per-document batch of `link` edges. -/
def linkEdges (d : Doc) : List GEdge :=
  (extractLinks d.content).map (fun l => (⟨d.name, cleanLink l, "link"⟩ : GEdge))

def buildStep (includeTags : Bool) (st : List (String × GNode) × List GEdge) (d : Doc) :
    List (String × GNode) × List GEdge :=
  if d.ok then
    if includeTags then
      d.tags.foldl (addTag d.name) (upsert st.1 d.name (noteNode d), st.2 ++ linkEdges d)
    else (upsert st.1 d.name (noteNode d), st.2 ++ linkEdges d)
  else st

/-- The graph-build phase of `generate_graph`: fold the scan over the corpus
producing the `nodes` dict (as an insertion-ordered association list) and
the `edges` list. -/
def buildGraph (includeTags : Bool) (corpus : List Doc) :
    List (String × GNode) × List GEdge :=
  corpus.foldl (buildStep includeTags) ([], [])

/-! ## The depth-limited traversal (`traverse`) -/

/-- The traversal's mutable state: the keys of `filtered_nodes` in insertion
order and the `filtered_edges` list. -/
structure TState where
  fnodes : List String
  fedges : List GEdge
  deriving DecidableEq, Repr

/-- Dict assignment `filtered_nodes[node] = ...` on the key list: a new key
is appended, an existing key keeps its position. -/
def pushNode (l : List String) (n : String) : List String :=
  if l.contains n then l else l ++ [n]

/-- The recursive `traverse(node, depth)` closure of `generate_graph`,
indexed by the remaining depth: at depth `0` (Python `depth <= 0`) return
immediately; otherwise, if `node` is a key of the full node dict, record it
and walk the full edge list, following each incident edge whose far endpoint
is not yet recorded — appending the edge *before* recursing with
`depth - 1`. -/
def trav (ids : List String) (edges : List GEdge) : Nat → String → TState → TState
  | 0, _, st => st
  | d + 1, node, st =>
    if ids.contains node then
      edges.foldl
        (fun st e =>
          if e.source == node && !(st.fnodes.contains e.target) then
            trav ids edges d e.target ⟨st.fnodes, st.fedges ++ [e]⟩
          else if e.target == node && !(st.fnodes.contains e.source) then
            trav ids edges d e.source ⟨st.fnodes, st.fedges ++ [e]⟩
          else st)
        ⟨pushNode st.fnodes node, st.fedges⟩
    else st

/-- The call `traverse(request.node, request.depth)` on the empty filtered
state.  The request depth is a Python `int`; any non-positive depth behaves
as `0`. -/
def travTop (ids : List String) (edges : List GEdge) (root : String) (depth : Int) :
    TState :=
  trav ids edges depth.toNat root ⟨[], []⟩

/-- A graph request: traversal `depth`, optional root `node`, and the
`include_tags` flag (`include_attachments` is declared by the pydantic model
but never read by the handler). -/
structure GraphReq where
  depth : Int
  node : Option String
  include_tags : Bool
  include_attachments : Bool
  deriving DecidableEq, Repr

/-- The node/edge part of the graph endpoint's JSON body
(`list(nodes.values())` and `edges`; the derived `stats` block is determined
by these and not modelled separately). -/
structure GraphResponse where
  nodes : List GNode
  edges : List GEdge
  deriving DecidableEq, Repr

/-- Keys of the node dict in insertion order. -/
def keysOf (m : List (String × GNode)) : List String :=
  m.map (fun p => p.1)

/-- Values of the node dict in insertion order. -/
def valuesOf (m : List (String × GNode)) : List GNode :=
  m.map (fun p => p.2)

/-- The `generate_graph` endpoint: build the full graph, then — only when a
root node is requested, is truthy (non-empty), and is a key of the full node
dict — replace the graph by the traversal's filtered nodes and edges.  When
the requested root is absent the filter block is skipped and the full graph
is returned. -/
def generateGraph (req : GraphReq) (corpus : List Doc) : GraphResponse :=
  let g := buildGraph req.include_tags corpus
  match req.node with
  | some n =>
    if !(n == "") && hasKey g.1 n then
      let st := travTop (keysOf g.1) g.2 n req.depth
      ⟨st.fnodes.filterMap (fun k => lookupA g.1 k), st.fedges⟩
    else ⟨valuesOf g.1, g.2⟩
  | none => ⟨valuesOf g.1, g.2⟩

/-- The body of the edge loop of `traverse`, named so the fold can be
reasoned about: follow an incident edge whose far endpoint is unvisited,
appending it before recursing one level deeper. -/
def travStep (ids : List String) (edges : List GEdge) (d : Nat) (node : String)
    (st : TState) (e : GEdge) : TState :=
  if e.source == node && !(st.fnodes.contains e.target) then
    trav ids edges d e.target ⟨st.fnodes, st.fedges ++ [e]⟩
  else if e.target == node && !(st.fnodes.contains e.source) then
    trav ids edges d e.source ⟨st.fnodes, st.fedges ++ [e]⟩
  else st

/-- The incidence invariant: every recorded edge has a recorded endpoint. -/
def edgesInc (st : TState) : Prop :=
  ∀ e ∈ st.fedges, e.source ∈ st.fnodes ∨ e.target ∈ st.fnodes

/-- The key `k` is bound to a note-typed record: the "document wins" shape of
a node-dict entry. -/
def noteAt (m : List (String × GNode)) (k : String) : Prop :=
  ∃ v : GNode, lookupA m k = some v ∧ v.ty = "note"

/-- Total number of `[[...]]` occurrences across the successfully scanned
documents of a corpus (duplicates retained). -/
def linkCountOf (corpus : List Doc) : Nat :=
  ((corpus.filter (fun d => d.ok)).map (fun d => (extractLinks d.content).length)).sum

/-! ## Concrete sanity checks of the embedding -/

example : containsSub ['a', 'b'] ['x', 'a', 'b', 'y'] = true := by decide
example : containsSub ['a', 'b'] ['x', 'a', 'y', 'b'] = false := by decide
example : cleanLink " A |alias" = "A" := by decide
example : specCleanLink " A |alias" = " A " := by decide
example : reCountI "." "a.b" = 3 := by decide
example : reCountI "note" "a note and a note" = 2 := by decide
example : litCountI "." "a.b" = 1 := by decide
example : litCountI "aa" "aaa" = 1 := by decide
example : blMatch "B" "see [[Bob|him]] now" = true := by decide
example : blMatch "b" "see [[Bob]] now" = false := by decide
example : extractLinks "See [[B]] and [[C|alias]]" = ["B", "C|alias"] := by decide
example : extractLinks ("[[a" ++ "\n" ++ "b]]") = [] := by decide
example : extractLinks "[[[x]]" = ["[x"] := by decide
example : (extractLinks "[[ A ]]").map cleanLink = ["A"] := by decide
example : travTop ["a"] [] "a" 0 = ⟨[], []⟩ := by decide
example : travTop ["R", "A"] [⟨"R", "A", "link"⟩] "R" 1 =
    ⟨["R"], [⟨"R", "A", "link"⟩]⟩ := by decide

/-! ## Lemmas about the stable descending sort -/

theorem mem_insertDesc (x : SearchResult) :
    ∀ (l : List SearchResult) (z : SearchResult), z ∈ insertDesc x l → z = x ∨ z ∈ l := by
  intro l
  induction l with
  | nil =>
    intro z hz
    simp only [insertDesc, List.mem_singleton] at hz
    exact Or.inl hz
  | cons y ys ih =>
    intro z hz
    by_cases hc : y.matchCount ≤ x.matchCount
    · simp only [insertDesc, if_pos hc, List.mem_cons] at hz
      rcases hz with hz | hz | hz
      · exact Or.inl hz
      · exact Or.inr (by simp [hz])
      · exact Or.inr (by simp [hz])
    · simp only [insertDesc, if_neg hc, List.mem_cons] at hz
      rcases hz with hz | hz
      · exact Or.inr (by simp [hz])
      · rcases ih z hz with h' | h'
        · exact Or.inl h'
        · exact Or.inr (by simp [h'])

theorem pairwise_insertDesc (x : SearchResult) :
    ∀ l : List SearchResult,
      l.Pairwise (fun a b => b.matchCount ≤ a.matchCount) →
      (insertDesc x l).Pairwise (fun a b => b.matchCount ≤ a.matchCount) := by
  intro l
  induction l with
  | nil => intro _; simp [insertDesc]
  | cons y ys ih =>
    intro h
    rcases List.pairwise_cons.mp h with ⟨hy, hys⟩
    by_cases hc : y.matchCount ≤ x.matchCount
    · simp only [insertDesc, if_pos hc]
      refine List.pairwise_cons.mpr ⟨?_, h⟩
      intro z hz
      rcases List.mem_cons.mp hz with hz | hz
      · exact hz ▸ hc
      · exact le_trans (hy z hz) hc
    · simp only [insertDesc, if_neg hc]
      refine List.pairwise_cons.mpr ⟨?_, ih hys⟩
      intro z hz
      rcases mem_insertDesc x ys z hz with hz' | hz'
      · exact hz' ▸ le_of_lt (lt_of_not_le hc)
      · exact hy z hz'

theorem pairwise_pySortDesc (rs : List SearchResult) :
    (pySortDesc rs).Pairwise (fun a b => b.matchCount ≤ a.matchCount) := by
  induction rs with
  | nil => simp [pySortDesc]
  | cons x xs ih => exact pairwise_insertDesc x (pySortDesc xs) ih

theorem filter_insertDesc_pos (x : SearchResult) :
    ∀ l : List SearchResult,
      (insertDesc x l).filter (fun r => r.matchCount == x.matchCount) =
        x :: l.filter (fun r => r.matchCount == x.matchCount) := by
  intro l
  induction l with
  | nil => simp [insertDesc, List.filter_cons]
  | cons y ys ih =>
    by_cases hc : y.matchCount ≤ x.matchCount
    · simp [insertDesc, if_pos hc, List.filter_cons]
    · have hy : (y.matchCount == x.matchCount) = false := by
        simp only [beq_eq_false_iff_ne, ne_eq]
        intro he
        exact hc (le_of_eq he)
      simp [insertDesc, if_neg hc, List.filter_cons, hy, ih]

theorem filter_insertDesc_neg (x : SearchResult) {m : Nat} (hx : ¬(x.matchCount = m)) :
    ∀ l : List SearchResult,
      (insertDesc x l).filter (fun r => r.matchCount == m) =
        l.filter (fun r => r.matchCount == m) := by
  have hxb : (x.matchCount == m) = false := by
    simp only [beq_eq_false_iff_ne, ne_eq]
    exact hx
  intro l
  induction l with
  | nil => simp [insertDesc, List.filter_cons, hxb]
  | cons y ys ih =>
    by_cases hc : y.matchCount ≤ x.matchCount
    · simp [insertDesc, if_pos hc, List.filter_cons, hxb]
    · simp [insertDesc, if_neg hc, List.filter_cons, ih]

theorem filter_pySortDesc (m : Nat) (rs : List SearchResult) :
    (pySortDesc rs).filter (fun r => r.matchCount == m) =
      rs.filter (fun r => r.matchCount == m) := by
  induction rs with
  | nil => simp [pySortDesc]
  | cons x xs ih =>
    by_cases hx : x.matchCount = m
    · subst hx
      rw [pySortDesc, filter_insertDesc_pos x (pySortDesc xs), ih, List.filter_cons]
      simp
    · rw [pySortDesc, filter_insertDesc_neg x hx (pySortDesc xs), ih, List.filter_cons]
      have hxb : (x.matchCount == m) = false := by
        simp only [beq_eq_false_iff_ne, ne_eq]
        exact hx
      simp [hxb]

theorem pairwise_take_drop {R : SearchResult → SearchResult → Prop}
    {l : List SearchResult} (h : l.Pairwise R) (n : Nat) :
    ∀ x ∈ l.take n, ∀ y ∈ l.drop n, R x y := by
  have hsplit := List.take_append_drop n l
  rw [← hsplit] at h
  exact (List.pairwise_append.mp h).2.2

/-! ## Lemmas relating the regex-fragment count to the literal count -/

theorem matchPat_lit (n : List Char) : ∀ h : List Char,
    matchPat true (n.map RTok.lit) h =
      if isPref (lowerL n) (lowerL h) then some (h.drop n.length) else none := by
  induction n with
  | nil =>
    intro h
    simp [matchPat, lowerL, isPref]
  | cons a as ih =>
    intro h
    cases h with
    | nil =>
      simp [matchPat, lowerL, isPref]
    | cons c cs =>
      show (if a.toLower = c.toLower then matchPat true (as.map RTok.lit) cs else none) = _
      have hrhs : isPref (lowerL (a :: as)) (lowerL (c :: cs)) =
          ((a.toLower == c.toLower) && isPref (lowerL as) (lowerL cs)) := by
        simp [lowerL, isPref]
      rw [hrhs]
      by_cases hac : a.toLower = c.toLower
      · have : (a.toLower == c.toLower) = true := by simp [hac]
        rw [if_pos hac, this, Bool.true_and, ih cs]
        rfl
      · have : (a.toLower == c.toLower) = false := by simp [hac]
        rw [if_neg hac, this, Bool.false_and, if_neg (by simp)]

theorem reGo_eq_litGo (n : List Char) : ∀ (fuel : Nat) (h : List Char),
    reGo true (n.map RTok.lit) fuel h = litGo (lowerL n) fuel (lowerL h) := by
  intro fuel
  induction fuel with
  | zero => intro h; rfl
  | succ fuel ih =>
    intro h
    cases h with
    | nil => rfl
    | cons c cs =>
      have hl : lowerL (c :: cs) = c.toLower :: lowerL cs := by simp [lowerL]
      show (match matchPat true (n.map RTok.lit) (c :: cs) with
        | some rest' => 1 + reGo true (n.map RTok.lit) fuel rest'
        | none => reGo true (n.map RTok.lit) fuel cs) = _
      rw [matchPat_lit n (c :: cs)]
      have hrhs : litGo (lowerL n) (fuel + 1) (lowerL (c :: cs)) =
          if isPref (lowerL n) (lowerL (c :: cs)) then
            1 + litGo (lowerL n) fuel ((lowerL (c :: cs)).drop (lowerL n).length)
          else litGo (lowerL n) fuel (lowerL cs) := by
        rw [hl]
        rfl
      rw [hrhs]
      by_cases hp : isPref (lowerL n) (lowerL (c :: cs)) = true
      · rw [if_pos hp, if_pos hp]
        have hdrop : (lowerL (c :: cs)).drop (lowerL n).length =
            lowerL ((c :: cs).drop n.length) := by
          simp [lowerL, List.map_drop]
        rw [hdrop]
        exact congrArg (1 + ·) (ih ((c :: cs).drop n.length))
      · rw [if_neg hp, if_neg hp]
        exact ih cs

theorem parseRe_metaFree {q : List Char}
    (h : ∀ c ∈ q, isSpecialCh c = false ∧ c ≠ '.') :
    parseRe q = some (q.map RTok.lit) := by
  induction q with
  | nil => rfl
  | cons c rest ih =>
    have hc := h c (by simp)
    have hrest := ih (fun c' hc' => h c' (by simp [hc']))
    simp [parseRe, hc.1, hrest, hc.2]

theorem metaFree_spec {q : String} (h : metaFree q = true) :
    ∀ c ∈ q.data, isSpecialCh c = false ∧ c ≠ '.' := by
  intro c hc
  have := (List.all_eq_true.mp h) c hc
  constructor
  · cases hspec : isSpecialCh c with
    | false => rfl
    | true => simp [hspec] at this
  · intro hdot
    simp [hdot] at this

theorem reCountI_eq_litCountI {q : String} (h : metaFree q = true) (s : String) :
    reCountI q s = litCountI q s := by
  have hparse : parseRe q.data = some (q.data.map RTok.lit) :=
    parseRe_metaFree (metaFree_spec h)
  cases hq : q.data with
  | nil =>
    rw [reCountI, litCountI, hq]
    rfl
  | cons c rest =>
    rw [hq] at hparse
    rw [reCountI, litCountI, hq, hparse]
    show reGo true ((c :: rest).map RTok.lit) s.data.length s.data = _
    rw [reGo_eq_litGo (c :: rest) s.data.length s.data]
    rfl

theorem containsSub_iff_litGo_pos {n : List Char} (hn : n ≠ []) :
    ∀ (fuel : Nat) (h : List Char), h.length ≤ fuel →
      (containsSub n h = true ↔ 0 < litGo n fuel h) := by
  intro fuel
  induction fuel with
  | zero =>
    intro h hh
    have : h = [] := List.eq_nil_of_length_eq_zero (Nat.le_zero.mp hh)
    subst this
    simp [containsSub, litGo, List.isEmpty, hn]
    cases n with
    | nil => exact absurd rfl hn
    | cons a as => simp [containsSub]
  | succ fuel ih =>
    intro h hh
    cases h with
    | nil =>
      cases n with
      | nil => exact absurd rfl hn
      | cons a as => simp [containsSub, litGo]
    | cons c cs =>
      have hcs : cs.length ≤ fuel := by simpa using hh
      by_cases hp : isPref n (c :: cs) = true
      · simp [containsSub, litGo, hp]
      · have h1 : containsSub n (c :: cs) = containsSub n cs := by
          simp [containsSub, hp]
        have h2 : litGo n (fuel + 1) (c :: cs) = litGo n fuel cs := by
          simp [litGo, hp]
        rw [h1, h2]
        exact ih cs hcs

theorem containsSub_iff_litCountI_pos (q s : String) :
    containsSub (lowerL q.data) (lowerL s.data) = true ↔ 0 < litCountI q s := by
  cases hq : lowerL q.data with
  | nil =>
    rw [litCountI, hq]
    show containsSub [] (lowerL s.data) = true ↔ 0 < s.data.length + 1
    simp only [Nat.zero_lt_succ, iff_true]
    cases hs : lowerL s.data with
    | nil => simp [containsSub, List.isEmpty]
    | cons c cs => simp [containsSub, isPref]
  | cons a as =>
    rw [litCountI, hq]
    show containsSub (a :: as) (lowerL s.data) = true ↔
      0 < litGo (a :: as) s.data.length (lowerL s.data)
    have hlen : (lowerL s.data).length = s.data.length := by simp [lowerL]
    exact containsSub_iff_litGo_pos (n := a :: as) (by simp) s.data.length
      (lowerL s.data) (le_of_eq hlen)

/-! ## Lemmas about unknown search modes -/

theorem docMatch_unknown {req : SearchReq} (h1 : req.search_type ≠ "content")
    (h2 : req.search_type ≠ "title") (h3 : req.search_type ≠ "tags")
    (h4 : req.search_type ≠ "backlinks") (d : Doc) : docMatch req d = false := by
  simp [docMatch, h1, h2, h3, h4]

theorem searchNotes_unknown {req : SearchReq} (h1 : req.search_type ≠ "content")
    (h2 : req.search_type ≠ "title") (h3 : req.search_type ≠ "tags")
    (h4 : req.search_type ≠ "backlinks") (corpus : List Doc) :
    searchNotes req corpus = SearchOut.ok ⟨req.query, 0, []⟩ := by
  have hraw : rawResults req corpus = [] := by
    unfold rawResults
    have hfil : (corpus.filter (fun d => d.ok)).filter (fun d => docMatch req d) = [] := by
      apply List.filter_eq_nil_iff.mpr
      intro d _
      simp [docMatch_unknown h1 h2 h3 h4]
    rw [hfil]
    rfl
  unfold searchNotes
  rw [hraw]
  simp [pySortDesc]

/-! ## Generic fold invariance -/

theorem foldl_pres {α β : Type} (P : α → Prop) (step : α → β → α) :
    ∀ (l : List β) (a : α), P a →
      (∀ a' b, b ∈ l → P a' → P (step a' b)) → P (l.foldl step a) := by
  intro l
  induction l with
  | nil => intro a ha _; exact ha
  | cons b bs ih =>
    intro a ha hstep
    exact ih (step a b) (hstep a b (by simp) ha)
      (fun a' b' hb' => hstep a' b' (by simp [hb']))

/-! ## Unfolding and monotonicity of the traversal -/

theorem trav_zero (ids : List String) (edges : List GEdge) (node : String) (st : TState) :
    trav ids edges 0 node st = st := rfl

theorem trav_succ (ids : List String) (edges : List GEdge) (d : Nat) (node : String)
    (st : TState) :
    trav ids edges (d + 1) node st =
      if ids.contains node then
        edges.foldl (travStep ids edges d node) ⟨pushNode st.fnodes node, st.fedges⟩
      else st := rfl

theorem pushNode_mem_of_mem {l : List String} {x : String} (n : String)
    (h : x ∈ l) : x ∈ pushNode l n := by
  unfold pushNode
  split
  · exact h
  · simp [h]

theorem pushNode_mem_self (l : List String) (n : String) : n ∈ pushNode l n := by
  unfold pushNode
  split
  · next h =>
    rcases List.contains_iff_exists_mem_beq.mp h with ⟨a, ha, hb⟩
    rw [beq_iff_eq.mp hb]
    exact ha
  · simp

theorem pushNode_mem_elim {l : List String} {x n : String}
    (h : x ∈ pushNode l n) : x ∈ l ∨ x = n := by
  unfold pushNode at h
  split at h
  · exact Or.inl h
  · rcases List.mem_append.mp h with h' | h'
    · exact Or.inl h'
    · exact Or.inr (by simpa using h')

theorem trav_fnodes_mono (ids : List String) (edges : List GEdge) :
    ∀ (d : Nat) (node : String) (st : TState) (x : String),
      x ∈ st.fnodes → x ∈ (trav ids edges d node st).fnodes := by
  intro d
  induction d with
  | zero => intro node st x hx; exact hx
  | succ d ih =>
    intro node st x hx
    rw [trav_succ]
    split
    · refine foldl_pres (fun (a : TState) => x ∈ a.fnodes) (travStep ids edges d node)
        edges ⟨pushNode st.fnodes node, st.fedges⟩ ?_ ?_
      · exact pushNode_mem_of_mem node hx
      · intro a e _ ha
        unfold travStep
        split
        · exact ih e.target ⟨a.fnodes, a.fedges ++ [e]⟩ x ha
        · split
          · exact ih e.source ⟨a.fnodes, a.fedges ++ [e]⟩ x ha
          · exact ha
    · exact hx

theorem containsS_of_mem {l : List String} {x : String} (h : x ∈ l) :
    l.contains x = true :=
  List.contains_iff_exists_mem_beq.mpr ⟨x, h, by simp⟩

theorem mem_of_containsS {l : List String} {x : String} (h : l.contains x = true) :
    x ∈ l := by
  rcases List.contains_iff_exists_mem_beq.mp h with ⟨a, ha, hb⟩
  rw [beq_iff_eq.mp hb]
  exact ha

theorem not_mem_of_containsS_false {l : List String} {x : String}
    (h : l.contains x = false) : x ∉ l := by
  intro hx
  rw [containsS_of_mem hx] at h
  cases h

theorem trav_fnodes_sub (ids : List String) (edges : List GEdge) :
    ∀ (d : Nat) (node : String) (st : TState), (∀ x ∈ st.fnodes, x ∈ ids) →
      ∀ x ∈ (trav ids edges d node st).fnodes, x ∈ ids := by
  intro d
  induction d with
  | zero => intro node st h; exact h
  | succ d ih =>
    intro node st h
    rw [trav_succ]
    split
    · next hn =>
      refine foldl_pres (fun (a : TState) => ∀ x ∈ a.fnodes, x ∈ ids)
        (travStep ids edges d node) edges ⟨pushNode st.fnodes node, st.fedges⟩ ?_ ?_
      · intro x hx
        rcases pushNode_mem_elim hx with h' | h'
        · exact h x h'
        · exact h' ▸ mem_of_containsS hn
      · intro a e _ ha
        unfold travStep
        split
        · exact ih e.target ⟨a.fnodes, a.fedges ++ [e]⟩ ha
        · split
          · exact ih e.source ⟨a.fnodes, a.fedges ++ [e]⟩ ha
          · exact ha
    · exact h

theorem trav_root_mem (ids : List String) (edges : List GEdge) (d : Nat)
    (node : String) (st : TState) (hn : node ∈ ids) :
    node ∈ (trav ids edges (d + 1) node st).fnodes := by
  rw [trav_succ, if_pos (containsS_of_mem hn)]
  refine foldl_pres (fun (a : TState) => node ∈ a.fnodes)
    (travStep ids edges d node) edges ⟨pushNode st.fnodes node, st.fedges⟩
    (pushNode_mem_self st.fnodes node) ?_
  intro a e _ ha
  unfold travStep
  split
  · exact trav_fnodes_mono ids edges d e.target ⟨a.fnodes, a.fedges ++ [e]⟩ node ha
  · split
    · exact trav_fnodes_mono ids edges d e.source ⟨a.fnodes, a.fedges ++ [e]⟩ node ha
    · exact ha

theorem trav_inc (ids : List String) (edges : List GEdge) :
    ∀ (d : Nat) (node : String) (st : TState), edgesInc st →
      edgesInc (trav ids edges d node st) := by
  intro d
  induction d with
  | zero => intro node st h; exact h
  | succ d ih =>
    intro node st h
    rw [trav_succ]
    split
    · have h0 : edgesInc ⟨pushNode st.fnodes node, st.fedges⟩ := by
        intro e he
        exact (h e he).imp (pushNode_mem_of_mem node) (pushNode_mem_of_mem node)
      have hmain := foldl_pres
        (fun (a : TState) => node ∈ a.fnodes ∧ edgesInc a)
        (travStep ids edges d node) edges ⟨pushNode st.fnodes node, st.fedges⟩
        ⟨pushNode_mem_self st.fnodes node, h0⟩ ?_
      · exact hmain.2
      · intro a e _ ha
        rcases ha with ⟨hna, hinc⟩
        unfold travStep
        split
        · next hc =>
          simp only [Bool.and_eq_true] at hc
          rcases hc with ⟨hs, _⟩
          have hsrc : e.source = node := beq_iff_eq.mp hs
          have hmid : edgesInc ⟨a.fnodes, a.fedges ++ [e]⟩ := by
            intro e' he'
            rcases List.mem_append.mp he' with h' | h'
            · exact hinc e' h'
            · have he'e : e' = e := by simpa using h'
              subst he'e
              exact Or.inl (hsrc ▸ hna)
          exact ⟨trav_fnodes_mono ids edges d e.target ⟨a.fnodes, a.fedges ++ [e]⟩ node hna,
            ih e.target ⟨a.fnodes, a.fedges ++ [e]⟩ hmid⟩
        · split
          · next hc =>
            simp only [Bool.and_eq_true] at hc
            rcases hc with ⟨ht, _⟩
            have htgt : e.target = node := beq_iff_eq.mp ht
            have hmid : edgesInc ⟨a.fnodes, a.fedges ++ [e]⟩ := by
              intro e' he'
              rcases List.mem_append.mp he' with h' | h'
              · exact hinc e' h'
              · have he'e : e' = e := by simpa using h'
                subst he'e
                exact Or.inr (htgt ▸ hna)
            exact ⟨trav_fnodes_mono ids edges d e.source ⟨a.fnodes, a.fedges ++ [e]⟩ node hna,
              ih e.source ⟨a.fnodes, a.fedges ++ [e]⟩ hmid⟩
          · exact ⟨hna, hinc⟩
    · exact h

theorem not_mem_of_contains_false {l : List String} {x : String}
    (h : l.contains x = false) : x ∉ l :=
  fun hx => by rw [containsS_of_mem hx] at h; cases h

theorem count_append_single_ne {l : List GEdge} {e e' : GEdge} (h : ¬(e = e')) :
    (l ++ [e']).count e = l.count e := by
  rw [List.count_append]
  have h0 : ([e'].count e) = 0 := by
    rw [List.count_eq_zero]
    simp [h]
  rw [h0]
  rfl

theorem trav_frame (ids : List String) (edges : List GEdge) :
    ∀ (d : Nat) (m : String) (st : TState) (e : GEdge),
      m ∉ st.fnodes → (e.source ∈ st.fnodes ∨ e.target ∈ st.fnodes) →
      (trav ids edges d m st).fedges.count e = st.fedges.count e := by
  intro d
  induction d with
  | zero => intro m st e _ _; rfl
  | succ d ih =>
    intro m st e hm hmark
    rw [trav_succ]
    split
    · have hmain := foldl_pres
        (fun (a : TState) =>
          a.fedges.count e = st.fedges.count e ∧ ∀ x ∈ st.fnodes, x ∈ a.fnodes)
        (travStep ids edges d m) edges ⟨pushNode st.fnodes m, st.fedges⟩
        ⟨rfl, fun x hx => pushNode_mem_of_mem m hx⟩ ?_
      · exact hmain.1
      · intro a e₀ _ ha
        rcases ha with ⟨hcount, hsub⟩
        unfold travStep
        split
        · next hc =>
          simp only [Bool.and_eq_true, Bool.not_eq_true'] at hc
          rcases hc with ⟨hs, hnt⟩
          have hsrc : e₀.source = m := beq_iff_eq.mp hs
          have htgt : e₀.target ∉ a.fnodes := not_mem_of_contains_false hnt
          have hne : ¬(e = e₀) := by
            intro heq
            subst heq
            rcases hmark with hx | hx
            · exact hm (hsrc ▸ hx)
            · exact htgt (hsub e.target hx)
          have hmark' : e.source ∈ a.fnodes ∨ e.target ∈ a.fnodes :=
            hmark.imp (hsub e.source) (hsub e.target)
          constructor
          · have hrec := ih e₀.target ⟨a.fnodes, a.fedges ++ [e₀]⟩ e htgt hmark'
            rw [hrec]
            show (a.fedges ++ [e₀]).count e = _
            rw [count_append_single_ne hne, hcount]
          · intro x hx
            exact trav_fnodes_mono ids edges d e₀.target ⟨a.fnodes, a.fedges ++ [e₀]⟩
              x (hsub x hx)
        · split
          · next hc =>
            simp only [Bool.and_eq_true, Bool.not_eq_true'] at hc
            rcases hc with ⟨ht, hns⟩
            have htgt : e₀.target = m := beq_iff_eq.mp ht
            have hsrcn : e₀.source ∉ a.fnodes := not_mem_of_contains_false hns
            have hne : ¬(e = e₀) := by
              intro heq
              subst heq
              rcases hmark with hx | hx
              · exact hsrcn (hsub e.source hx)
              · exact hm (htgt ▸ hx)
            have hmark' : e.source ∈ a.fnodes ∨ e.target ∈ a.fnodes :=
              hmark.imp (hsub e.source) (hsub e.target)
            constructor
            · have hrec := ih e₀.source ⟨a.fnodes, a.fedges ++ [e₀]⟩ e hsrcn hmark'
              rw [hrec]
              show (a.fedges ++ [e₀]).count e = _
              rw [count_append_single_ne hne, hcount]
            · intro x hx
              exact trav_fnodes_mono ids edges d e₀.source ⟨a.fnodes, a.fedges ++ [e₀]⟩
                x (hsub x hx)
          · exact ⟨hcount, hsub⟩
    · rfl

theorem trav_count (ids : List String) (edges : List GEdge) :
    ∀ (d : Nat) (m : String) (st : TState),
      m ∉ st.fnodes →
      (∀ e : GEdge, st.fedges.count e ≤ edges.count e) →
      edgesInc st →
      ∀ e : GEdge, (trav ids edges d m st).fedges.count e ≤ edges.count e := by
  intro d
  induction d with
  | zero => intro m st _ hcnt _ e; exact hcnt e
  | succ d ih =>
    intro m st hm hcnt hinc
    rw [trav_succ]
    split
    · have aux : ∀ (rest : List GEdge) (a : TState),
          m ∈ a.fnodes →
          (∀ e, a.fedges.count e ≤ edges.count e) →
          edgesInc a →
          (∀ e : GEdge, ((e.source = m ∧ e.target ∉ a.fnodes) ∨
              (e.target = m ∧ e.source ∉ a.fnodes)) →
            a.fedges.count e + rest.count e ≤ edges.count e) →
          ∀ e, ((rest.foldl (travStep ids edges d m) a).fedges.count e ≤ edges.count e) := by
        intro rest
        induction rest with
        | nil => intro a _ hca _ _ e; exact hca e
        | cons e₀ rest' ihr =>
          intro a hma hca hia hopen
          rw [List.foldl_cons]
          by_cases hc1 : (e₀.source == m && !(a.fnodes.contains e₀.target)) = true
          · have hstep : travStep ids edges d m a e₀ =
                trav ids edges d e₀.target ⟨a.fnodes, a.fedges ++ [e₀]⟩ := by
              unfold travStep
              rw [if_pos hc1]
            rw [hstep]
            simp only [Bool.and_eq_true, Bool.not_eq_true'] at hc1
            rcases hc1 with ⟨hs, hct⟩
            have hsrc : e₀.source = m := beq_iff_eq.mp hs
            have htgtn : e₀.target ∉ a.fnodes := not_mem_of_contains_false hct
            have hopen₀ := hopen e₀ (Or.inl ⟨hsrc, htgtn⟩)
            have hcons₀ : (e₀ :: rest').count e₀ = rest'.count e₀ + 1 := by
              rw [List.count_cons]
              simp
            rw [hcons₀] at hopen₀
            have hmidc : ∀ e, (a.fedges ++ [e₀]).count e ≤ edges.count e := by
              intro e
              by_cases he : e = e₀
              · subst he
                rw [List.count_append]
                have h1 : ([e].count e) = 1 := by simp
                rw [h1]
                omega
              · rw [count_append_single_ne he]
                exact hca e
            have hmidinc : edgesInc ⟨a.fnodes, a.fedges ++ [e₀]⟩ := by
              intro e' he'
              rcases List.mem_append.mp he' with h' | h'
              · exact hia e' h'
              · have he'e : e' = e₀ := by simpa using h'
                subst he'e
                exact Or.inl (hsrc ▸ hma)
            have hressub : ∀ x ∈ a.fnodes,
                x ∈ (trav ids edges d e₀.target ⟨a.fnodes, a.fedges ++ [e₀]⟩).fnodes :=
              fun x hx =>
                trav_fnodes_mono ids edges d e₀.target ⟨a.fnodes, a.fedges ++ [e₀]⟩ x hx
            apply ihr (trav ids edges d e₀.target ⟨a.fnodes, a.fedges ++ [e₀]⟩)
              (hressub m hma)
              (ih e₀.target ⟨a.fnodes, a.fedges ++ [e₀]⟩ htgtn hmidc hmidinc)
              (trav_inc ids edges d e₀.target ⟨a.fnodes, a.fedges ++ [e₀]⟩ hmidinc)
            intro e hoe
            have hfr : (trav ids edges d e₀.target
                ⟨a.fnodes, a.fedges ++ [e₀]⟩).fedges.count e = (a.fedges ++ [e₀]).count e := by
              apply trav_frame ids edges d e₀.target ⟨a.fnodes, a.fedges ++ [e₀]⟩ e htgtn
              rcases hoe with ⟨hes, _⟩ | ⟨het, _⟩
              · exact Or.inl (hes ▸ hma)
              · exact Or.inr (het ▸ hma)
            rw [hfr]
            by_cases he : e = e₀
            · subst he
              rw [List.count_append]
              have h1 : ([e].count e) = 1 := by simp
              rw [h1]
              omega
            · rw [count_append_single_ne he]
              have hoa : (e.source = m ∧ e.target ∉ a.fnodes) ∨
                  (e.target = m ∧ e.source ∉ a.fnodes) := by
                rcases hoe with ⟨hes, hft⟩ | ⟨het, hfs⟩
                · exact Or.inl ⟨hes, fun hx => hft (hressub e.target hx)⟩
                · exact Or.inr ⟨het, fun hx => hfs (hressub e.source hx)⟩
              have hoc := hopen e hoa
              have hcc : (e₀ :: rest').count e = rest'.count e := by
                rw [List.count_cons]
                simp [Ne.symm he]
              rw [hcc] at hoc
              exact hoc
          · by_cases hc2 : (e₀.target == m && !(a.fnodes.contains e₀.source)) = true
            · have hstep : travStep ids edges d m a e₀ =
                  trav ids edges d e₀.source ⟨a.fnodes, a.fedges ++ [e₀]⟩ := by
                unfold travStep
                rw [if_neg (by simpa using hc1), if_pos hc2]
              rw [hstep]
              simp only [Bool.and_eq_true, Bool.not_eq_true'] at hc2
              rcases hc2 with ⟨ht, hcs⟩
              have htgt : e₀.target = m := beq_iff_eq.mp ht
              have hsrcn : e₀.source ∉ a.fnodes := not_mem_of_contains_false hcs
              have hopen₀ := hopen e₀ (Or.inr ⟨htgt, hsrcn⟩)
              have hcons₀ : (e₀ :: rest').count e₀ = rest'.count e₀ + 1 := by
                rw [List.count_cons]
                simp
              rw [hcons₀] at hopen₀
              have hmidc : ∀ e, (a.fedges ++ [e₀]).count e ≤ edges.count e := by
                intro e
                by_cases he : e = e₀
                · subst he
                  rw [List.count_append]
                  have h1 : ([e].count e) = 1 := by simp
                  rw [h1]
                  omega
                · rw [count_append_single_ne he]
                  exact hca e
              have hmidinc : edgesInc ⟨a.fnodes, a.fedges ++ [e₀]⟩ := by
                intro e' he'
                rcases List.mem_append.mp he' with h' | h'
                · exact hia e' h'
                · have he'e : e' = e₀ := by simpa using h'
                  subst he'e
                  exact Or.inr (htgt ▸ hma)
              have hressub : ∀ x ∈ a.fnodes,
                  x ∈ (trav ids edges d e₀.source ⟨a.fnodes, a.fedges ++ [e₀]⟩).fnodes :=
                fun x hx =>
                  trav_fnodes_mono ids edges d e₀.source ⟨a.fnodes, a.fedges ++ [e₀]⟩ x hx
              apply ihr (trav ids edges d e₀.source ⟨a.fnodes, a.fedges ++ [e₀]⟩)
                (hressub m hma)
                (ih e₀.source ⟨a.fnodes, a.fedges ++ [e₀]⟩ hsrcn hmidc hmidinc)
                (trav_inc ids edges d e₀.source ⟨a.fnodes, a.fedges ++ [e₀]⟩ hmidinc)
              intro e hoe
              have hfr : (trav ids edges d e₀.source
                  ⟨a.fnodes, a.fedges ++ [e₀]⟩).fedges.count e =
                    (a.fedges ++ [e₀]).count e := by
                apply trav_frame ids edges d e₀.source ⟨a.fnodes, a.fedges ++ [e₀]⟩ e hsrcn
                rcases hoe with ⟨hes, _⟩ | ⟨het, _⟩
                · exact Or.inl (hes ▸ hma)
                · exact Or.inr (het ▸ hma)
              rw [hfr]
              by_cases he : e = e₀
              · subst he
                rw [List.count_append]
                have h1 : ([e].count e) = 1 := by simp
                rw [h1]
                omega
              · rw [count_append_single_ne he]
                have hoa : (e.source = m ∧ e.target ∉ a.fnodes) ∨
                    (e.target = m ∧ e.source ∉ a.fnodes) := by
                  rcases hoe with ⟨hes, hft⟩ | ⟨het, hfs⟩
                  · exact Or.inl ⟨hes, fun hx => hft (hressub e.target hx)⟩
                  · exact Or.inr ⟨het, fun hx => hfs (hressub e.source hx)⟩
                have hoc := hopen e hoa
                have hcc : (e₀ :: rest').count e = rest'.count e := by
                  rw [List.count_cons]
                  simp [Ne.symm he]
                rw [hcc] at hoc
                exact hoc
            · have hstep : travStep ids edges d m a e₀ = a := by
                unfold travStep
                rw [if_neg (by simpa using hc1), if_neg (by simpa using hc2)]
              rw [hstep]
              apply ihr a hma hca hia
              intro e hoe
              have hoc := hopen e hoe
              have hcc : rest'.count e ≤ (e₀ :: rest').count e := by
                rw [List.count_cons]
                omega
              omega
      apply aux edges ⟨pushNode st.fnodes m, st.fedges⟩
        (pushNode_mem_self st.fnodes m) hcnt
      · intro e he
        exact (hinc e he).imp (pushNode_mem_of_mem m) (pushNode_mem_of_mem m)
      · intro e hoe
        have h0 : st.fedges.count e = 0 := by
          rw [List.count_eq_zero]
          intro hmem
          rcases hoe with ⟨hes, hft⟩ | ⟨het, hfs⟩
          · rcases hinc e hmem with hx | hx
            · exact hm (hes ▸ hx)
            · exact hft (pushNode_mem_of_mem m hx)
          · rcases hinc e hmem with hx | hx
            · exact hfs (pushNode_mem_of_mem m hx)
            · exact hm (het ▸ hx)
        show st.fedges.count e + edges.count e ≤ edges.count e
        rw [h0]
        omega
    · intro e
      exact hcnt e

/-! ## Lemmas about the graph build: link-edge accounting -/

theorem addTag_foldl_snd (name : String) :
    ∀ (tags : List String) (ns : List (String × GNode)) (es : List GEdge),
      ∃ ts : List GEdge,
        (tags.foldl (addTag name) (ns, es)).2 = es ++ ts ∧ ∀ e ∈ ts, e.ty = "tag" := by
  intro tags
  induction tags with
  | nil =>
    intro ns es
    exact ⟨[], by simp, by simp⟩
  | cons t ts ih =>
    intro ns es
    rw [List.foldl_cons]
    rcases ih (if hasKey ns t then ns else ns ++ [(t, tagNode t)])
      (es ++ [⟨name, t, "tag"⟩]) with ⟨rest, hrest, hty⟩
    refine ⟨⟨name, t, "tag"⟩ :: rest, ?_, ?_⟩
    · show (ts.foldl (addTag name) (addTag name (ns, es) t)).2 = _
      have hstep : addTag name (ns, es) t =
          (if hasKey ns t then ns else ns ++ [(t, tagNode t)],
            es ++ [⟨name, t, "tag"⟩]) := rfl
      rw [hstep, hrest]
      simp
    · intro e he
      rcases List.mem_cons.mp he with h' | h'
      · subst h'; rfl
      · exact hty e h'

theorem filter_link_append_tags {es ts : List GEdge} (h : ∀ e ∈ ts, e.ty = "tag") :
    (es ++ ts).filter (fun e => e.ty == "link") = es.filter (fun e => e.ty == "link") := by
  rw [List.filter_append]
  have hts : ts.filter (fun e => e.ty == "link") = [] := by
    apply List.filter_eq_nil_iff.mpr
    intro e he
    rw [h e he]
    simp
  rw [hts, List.append_nil]

theorem filter_link_linkEdges (d : Doc) :
    (linkEdges d).filter (fun e => e.ty == "link") = linkEdges d := by
  apply List.filter_eq_self.mpr
  intro e he
  rcases List.mem_map.mp he with ⟨l, _, hl⟩
  rw [← hl]
  simp

theorem buildStep_filter_link (inc : Bool) (st : List (String × GNode) × List GEdge)
    (d : Doc) :
    ((buildStep inc st d).2).filter (fun e => e.ty == "link") =
      st.2.filter (fun e => e.ty == "link") ++
        (if d.ok then linkEdges d else []) := by
  unfold buildStep
  by_cases hok : d.ok
  · rw [if_pos hok, if_pos hok]
    by_cases hinc : inc
    · rw [if_pos hinc]
      rcases addTag_foldl_snd d.name d.tags (upsert st.1 d.name (noteNode d))
        (st.2 ++ linkEdges d) with ⟨ts, hts, hty⟩
      rw [hts, filter_link_append_tags hty, List.filter_append, filter_link_linkEdges]
    · rw [if_neg hinc]
      show (st.2 ++ linkEdges d).filter (fun e => e.ty == "link") = _
      rw [List.filter_append, filter_link_linkEdges]
  · rw [if_neg hok, if_neg hok, List.append_nil]

theorem buildGraph_link_count (inc : Bool) :
    ∀ (corpus : List Doc) (st : List (String × GNode) × List GEdge),
      ((corpus.foldl (buildStep inc) st).2.filter (fun e => e.ty == "link")).length =
        (st.2.filter (fun e => e.ty == "link")).length + linkCountOf corpus := by
  intro corpus
  induction corpus with
  | nil =>
    intro st
    simp [linkCountOf]
  | cons dc rest ih =>
    intro st
    rw [List.foldl_cons, ih (buildStep inc st dc), buildStep_filter_link]
    by_cases hok : dc.ok
    · rw [if_pos hok]
      have hcnt : linkCountOf (dc :: rest) = (extractLinks dc.content).length +
          linkCountOf rest := by
        unfold linkCountOf
        rw [List.filter_cons]
        simp [hok]
      rw [hcnt, List.length_append]
      have : (linkEdges dc).length = (extractLinks dc.content).length := by
        unfold linkEdges
        rw [List.length_map]
      omega
    · rw [if_neg hok]
      have hcnt : linkCountOf (dc :: rest) = linkCountOf rest := by
        unfold linkCountOf
        rw [List.filter_cons]
        simp [hok]
      rw [hcnt, List.append_nil]

theorem addTag_foldl_mem (name : String) :
    ∀ (tags : List String) (ns : List (String × GNode)) (es : List GEdge) (e : GEdge),
      e ∈ (tags.foldl (addTag name) (ns, es)).2 → e ∈ es ∨ e.ty = "tag" := by
  intro tags ns es e he
  rcases addTag_foldl_snd name tags ns es with ⟨ts, hts, hty⟩
  rw [hts] at he
  rcases List.mem_append.mp he with h' | h'
  · exact Or.inl h'
  · exact Or.inr (hty e h')

theorem buildGraph_link_mem (inc : Bool) :
    ∀ (corpus : List Doc) (st : List (String × GNode) × List GEdge) (e : GEdge),
      e ∈ (corpus.foldl (buildStep inc) st).2 → e.ty = "link" →
      e ∈ st.2 ∨ ∃ d ∈ corpus, d.ok = true ∧
        ∃ l ∈ extractLinks d.content, e = ⟨d.name, cleanLink l, "link"⟩ := by
  intro corpus
  induction corpus with
  | nil =>
    intro st e he _
    exact Or.inl he
  | cons dc rest ih =>
    intro st e he hty
    rw [List.foldl_cons] at he
    rcases ih (buildStep inc st dc) e he hty with h' | h'
    · unfold buildStep at h'
      by_cases hok : dc.ok
      · rw [if_pos hok] at h'
        have hmem : e ∈ st.2 ++ linkEdges dc := by
          by_cases hinc : inc
          · rw [if_pos hinc] at h'
            rcases addTag_foldl_mem dc.name dc.tags _ _ e h' with h'' | h''
            · exact h''
            · rw [hty] at h''
              exact absurd h'' (by decide)
          · rw [if_neg hinc] at h'
            exact h'
        rcases List.mem_append.mp hmem with h'' | h''
        · exact Or.inl h''
        · rcases List.mem_map.mp h'' with ⟨l, hl, hle⟩
          exact Or.inr ⟨dc, by simp, hok, l, hl, hle.symm⟩
      · rw [if_neg hok] at h'
        exact Or.inl h'
    · rcases h' with ⟨d, hd, hdok, l, hl, hle⟩
      exact Or.inr ⟨d, by simp [hd], hdok, l, hl, hle⟩

/-! ## Lemmas about the node dict: unique keys and document-wins collisions -/

theorem hasKey_iff (m : List (String × GNode)) (k : String) :
    hasKey m k = true ↔ k ∈ keysOf m := by
  unfold hasKey keysOf
  rw [List.any_eq_true]
  constructor
  · rintro ⟨p, hp, hpk⟩
    exact List.mem_map.mpr ⟨p, hp, beq_iff_eq.mp hpk⟩
  · intro hk
    rcases List.mem_map.mp hk with ⟨p, hp, hpk⟩
    exact ⟨p, hp, beq_iff_eq.mpr hpk⟩

theorem mem_keysOf_upsert :
    ∀ (m : List (String × GNode)) (k v x), x ∈ keysOf (upsert m k v) →
      x ∈ keysOf m ∨ x = k := by
  intro m
  induction m with
  | nil =>
    intro k v x hx
    simp [upsert, keysOf] at hx
    exact Or.inr hx
  | cons p rest ih =>
    intro k v x hx
    unfold upsert at hx
    by_cases hpk : (p.1 == k) = true
    · rw [if_pos hpk] at hx
      rcases List.mem_map.mp hx with ⟨q, hq, hqx⟩
      rcases List.mem_cons.mp hq with h' | h'
      · exact Or.inr (by rw [← hqx, h'])
      · exact Or.inl (by
          unfold keysOf
          exact List.mem_map.mpr ⟨q, by simp [h'], hqx⟩)
    · rw [if_neg hpk] at hx
      have hx' : x ∈ keysOf (p :: upsert rest k v) := hx
      unfold keysOf at hx'
      rcases List.mem_map.mp hx' with ⟨q, hq, hqx⟩
      rcases List.mem_cons.mp hq with h' | h'
      · exact Or.inl (by
          unfold keysOf
          exact List.mem_map.mpr ⟨q, by simp [h'], hqx⟩)
      · rcases ih k v x (by
          unfold keysOf
          exact List.mem_map.mpr ⟨q, h', hqx⟩) with h'' | h''
        · exact Or.inl (by
            unfold keysOf at h'' ⊢
            rcases List.mem_map.mp h'' with ⟨r, hr, hrx⟩
            exact List.mem_map.mpr ⟨r, by simp [hr], hrx⟩)
        · exact Or.inr h''

theorem nodup_keys_upsert :
    ∀ (m : List (String × GNode)) (k : String) (v : GNode),
      (keysOf m).Nodup → (keysOf (upsert m k v)).Nodup := by
  intro m
  induction m with
  | nil =>
    intro k v _
    simp [upsert, keysOf]
  | cons p rest ih =>
    intro k v hnd
    unfold keysOf at hnd
    rw [List.map_cons] at hnd
    rcases List.nodup_cons.mp hnd with ⟨hp, hrest⟩
    unfold upsert
    by_cases hpk : (p.1 == k) = true
    · rw [if_pos hpk]
      have hk : p.1 = k := beq_iff_eq.mp hpk
      unfold keysOf
      rw [List.map_cons]
      apply List.nodup_cons.mpr
      exact ⟨by rw [← hk]; exact hp, hrest⟩
    · rw [if_neg hpk]
      show (keysOf ((p :: upsert rest k v))).Nodup
      unfold keysOf
      rw [List.map_cons]
      apply List.nodup_cons.mpr
      constructor
      · intro hmem
        rcases mem_keysOf_upsert rest k v p.1 hmem with h' | h'
        · exact hp h'
        · exact hpk (beq_iff_eq.mpr h')
      · exact ih k v hrest

theorem nodup_keys_addTag_foldl (name : String) :
    ∀ (tags : List String) (ns : List (String × GNode)) (es : List GEdge),
      (keysOf ns).Nodup → (keysOf (tags.foldl (addTag name) (ns, es)).1).Nodup := by
  intro tags
  induction tags with
  | nil => intro ns es h; exact h
  | cons t ts ih =>
    intro ns es h
    rw [List.foldl_cons]
    have hstep : addTag name (ns, es) t =
        (if hasKey ns t then ns else ns ++ [(t, tagNode t)],
          es ++ [⟨name, t, "tag"⟩]) := rfl
    rw [hstep]
    by_cases hk : hasKey ns t = true
    · rw [if_pos hk]
      exact ih ns (es ++ [⟨name, t, "tag"⟩]) h
    · rw [if_neg hk]
      apply ih
      unfold keysOf
      rw [List.map_append]
      apply List.nodup_append.mpr
      refine ⟨h, by simp, ?_⟩
      intro x hx hy
      have hxt : x = t := by simpa using hy
      subst hxt
      exact hk ((hasKey_iff ns x).mpr hx)

theorem nodup_keys_buildGraph (inc : Bool) (corpus : List Doc) :
    (keysOf (buildGraph inc corpus).1).Nodup := by
  unfold buildGraph
  refine foldl_pres
    (fun (st : List (String × GNode) × List GEdge) => (keysOf st.1).Nodup)
    (buildStep inc) corpus ([], []) (by simp [keysOf]) ?_
  intro st d _ hst
  unfold buildStep
  by_cases hok : d.ok
  · rw [if_pos hok]
    by_cases hinc : inc = true
    · rw [if_pos hinc]
      exact nodup_keys_addTag_foldl d.name d.tags _ _
        (nodup_keys_upsert st.1 d.name (noteNode d) hst)
    · rw [if_neg hinc]
      exact nodup_keys_upsert st.1 d.name (noteNode d) hst
  · rw [if_neg hok]
    exact hst

theorem lookupA_upsert_self :
    ∀ (m : List (String × GNode)) (k : String) (v : GNode),
      lookupA (upsert m k v) k = some v := by
  intro m
  induction m with
  | nil => intro k v; simp [upsert, lookupA]
  | cons p rest ih =>
    intro k v
    unfold upsert
    by_cases hpk : (p.1 == k) = true
    · rw [if_pos hpk]
      simp [lookupA]
    · rw [if_neg hpk]
      show lookupA (p :: upsert rest k v) k = some v
      unfold lookupA
      rw [if_neg (by simpa using hpk)]
      exact ih k v

theorem lookupA_upsert_ne :
    ∀ (m : List (String × GNode)) (k : String) (v : GNode) (x : String), x ≠ k →
      lookupA (upsert m k v) x = lookupA m x := by
  intro m
  induction m with
  | nil =>
    intro k v x hx
    simp [upsert, lookupA, fun h => hx (beq_iff_eq.mp h)]
    intro h
    exact absurd h.symm hx
  | cons p rest ih =>
    intro k v x hx
    unfold upsert
    by_cases hpk : (p.1 == k) = true
    · rw [if_pos hpk]
      have hk : p.1 = k := beq_iff_eq.mp hpk
      show lookupA ((k, v) :: rest) x = lookupA (p :: rest) x
      unfold lookupA
      rw [if_neg (by simp; intro h; exact hx h.symm),
        if_neg (by simp [hk]; intro h; exact hx h.symm)]
    · rw [if_neg hpk]
      show lookupA (p :: upsert rest k v) x = lookupA (p :: rest) x
      unfold lookupA
      by_cases hpx : (p.1 == x) = true
      · rw [if_pos hpx, if_pos hpx]
      · rw [if_neg hpx, if_neg hpx]
        exact ih k v x hx

theorem mem_keysOf_of_lookupA :
    ∀ (m : List (String × GNode)) (k : String) (v : GNode),
      lookupA m k = some v → k ∈ keysOf m := by
  intro m
  induction m with
  | nil => intro k v h; cases h
  | cons p rest ih =>
    intro k v h
    unfold lookupA at h
    unfold keysOf
    rw [List.map_cons]
    by_cases hpk : (p.1 == k) = true
    · exact List.mem_cons.mpr (Or.inl (beq_iff_eq.mp hpk).symm)
    · rw [if_neg hpk] at h
      exact List.mem_cons.mpr (Or.inr (ih k v h))

theorem lookupA_append_ne :
    ∀ (m : List (String × GNode)) (k t : String) (v : GNode), k ≠ t →
      lookupA (m ++ [(t, v)]) k = lookupA m k := by
  intro m
  induction m with
  | nil =>
    intro k t v hk
    show lookupA [(t, v)] k = none
    unfold lookupA
    rw [if_neg (by simp; intro h; exact hk h.symm)]
    rfl
  | cons p rest ih =>
    intro k t v hk
    show lookupA (p :: (rest ++ [(t, v)])) k = lookupA (p :: rest) k
    unfold lookupA
    by_cases hpk : (p.1 == k) = true
    · rw [if_pos hpk, if_pos hpk]
    · rw [if_neg hpk, if_neg hpk]
      exact ih k t v hk

theorem noteAt_addTag_foldl (name : String) :
    ∀ (tags : List String) (ns : List (String × GNode)) (es : List GEdge) (k : String),
      noteAt ns k → noteAt (tags.foldl (addTag name) (ns, es)).1 k := by
  intro tags
  induction tags with
  | nil => intro ns es k h; exact h
  | cons t ts ih =>
    intro ns es k h
    rw [List.foldl_cons]
    have hstep : addTag name (ns, es) t =
        (if hasKey ns t then ns else ns ++ [(t, tagNode t)],
          es ++ [⟨name, t, "tag"⟩]) := rfl
    rw [hstep]
    by_cases hkey : hasKey ns t = true
    · rw [if_pos hkey]
      exact ih ns _ k h
    · rw [if_neg hkey]
      apply ih
      rcases h with ⟨v, hv, hty⟩
      have hkt : k ≠ t := by
        intro hkt
        subst hkt
        exact hkey ((hasKey_iff ns k).mpr (mem_keysOf_of_lookupA ns k v hv))
      exact ⟨v, by rw [lookupA_append_ne ns k t (tagNode t) hkt]; exact hv, hty⟩

theorem noteAt_buildStep (inc : Bool) (st : List (String × GNode) × List GEdge)
    (d : Doc) (k : String) (h : noteAt st.1 k) : noteAt (buildStep inc st d).1 k := by
  unfold buildStep
  by_cases hok : d.ok
  · rw [if_pos hok]
    have hup : noteAt (upsert st.1 d.name (noteNode d)) k := by
      by_cases hkd : k = d.name
      · exact ⟨noteNode d, by rw [hkd]; exact lookupA_upsert_self st.1 d.name (noteNode d),
          rfl⟩
      · rcases h with ⟨v, hv, hty⟩
        exact ⟨v, by rw [lookupA_upsert_ne st.1 d.name (noteNode d) k hkd]; exact hv, hty⟩
    by_cases hinc : inc = true
    · rw [if_pos hinc]
      exact noteAt_addTag_foldl d.name d.tags _ _ k hup
    · rw [if_neg hinc]
      exact hup
  · rw [if_neg hok]
    exact h

theorem noteAt_buildStep_self (inc : Bool) (st : List (String × GNode) × List GEdge)
    (d : Doc) (hok : d.ok = true) : noteAt (buildStep inc st d).1 d.name := by
  unfold buildStep
  rw [if_pos hok]
  have hup : noteAt (upsert st.1 d.name (noteNode d)) d.name :=
    ⟨noteNode d, lookupA_upsert_self st.1 d.name (noteNode d), rfl⟩
  by_cases hinc : inc = true
  · rw [if_pos hinc]
    exact noteAt_addTag_foldl d.name d.tags _ _ d.name hup
  · rw [if_neg hinc]
    exact hup

theorem noteAt_buildGraph (inc : Bool) :
    ∀ (corpus : List Doc) (st : List (String × GNode) × List GEdge) (d : Doc),
      d ∈ corpus → d.ok = true →
      noteAt (corpus.foldl (buildStep inc) st).1 d.name := by
  intro corpus
  induction corpus with
  | nil => intro st d hd; cases hd
  | cons c rest ih =>
    intro st d hd hok
    rw [List.foldl_cons]
    rcases List.mem_cons.mp hd with h' | h'
    · subst h'
      refine foldl_pres
        (fun (a : List (String × GNode) × List GEdge) => noteAt a.1 d.name)
        (buildStep inc) rest (buildStep inc st d)
        (noteAt_buildStep_self inc st d hok) ?_
      intro a b _ ha
      exact noteAt_buildStep inc a b d.name ha
    · exact ih (buildStep inc st c) d h' hok

/-! ## Remaining shared lemmas -/

theorem rawResults_mem (req : SearchReq) (corpus : List Doc) (r : SearchResult)
    (hr : r ∈ rawResults req corpus) :
    ∃ d, d ∈ corpus ∧ d.ok = true ∧ docMatch req d = true ∧
      r = ⟨d.name, reCountI req.query d.content⟩ := by
  unfold rawResults at hr
  rcases List.mem_map.mp hr with ⟨d, hd, hmk⟩
  rcases List.mem_filter.mp hd with ⟨hd1, hd2⟩
  rcases List.mem_filter.mp hd1 with ⟨hd0, hok⟩
  exact ⟨d, hd0, hok, hd2, hmk.symm⟩

theorem generateGraph_missing_root (req : GraphReq) (corpus : List Doc) (n : String)
    (hn : req.node = some n)
    (hkey : hasKey (buildGraph req.include_tags corpus).1 n = false) :
    generateGraph req corpus =
      generateGraph ⟨req.depth, none, req.include_tags, req.include_attachments⟩
        corpus := by
  unfold generateGraph
  rw [hn]
  simp [hkey]

/-! ## Claim theorems -/

/-- **C1**, counterexample.  The claim says a requested root identifier
absent from the full node set makes the scoped traversal return the empty
result (no nodes, no edges).  On the concrete corpus with a single note
`a` and requested root `zz` (absent), `generate_graph` returns the full
graph — one node — not the empty result. -/
theorem c1_counterexample :
    generateGraph ⟨2, some "zz", true, false⟩ [⟨"a", "", [], true⟩] =
      ⟨[⟨"a", [], 0, "note"⟩], []⟩ ∧
    ([⟨"a", [], 0, "note"⟩] : List GNode) ≠ [] := by
  exact ⟨by decide, by decide⟩

/-- **C1**, amended.  If the requested root is absent from the full node
dict, the depth-filter block is skipped (its guard is
`request.node and request.node in nodes`) and the endpoint returns the full
graph unchanged — exactly the response it would give with no root requested
at all. -/
theorem c1_missing_root_full_graph (req : GraphReq) (corpus : List Doc) (n : String)
    (hn : req.node = some n)
    (hkey : hasKey (buildGraph req.include_tags corpus).1 n = false) :
    generateGraph req corpus =
      generateGraph ⟨req.depth, none, req.include_tags, req.include_attachments⟩
        corpus :=
  generateGraph_missing_root req corpus n hn hkey

/-- Witness for `c1_missing_root_full_graph` at a concrete request and
corpus. -/
theorem c1_missing_root_full_graph_witness :
    generateGraph ⟨2, some "zz", true, false⟩ [⟨"a", "", [], true⟩] =
      generateGraph ⟨2, none, true, false⟩ [⟨"a", "", [], true⟩] :=
  c1_missing_root_full_graph ⟨2, some "zz", true, false⟩ [⟨"a", "", [], true⟩] "zz"
    rfl (by decide)

/-- **C2**, counterexample.  Monotonic expansion in depth fails: on the
snapshot with nodes `R, a, b, X, Y` and edges
`R-a, a-b, b-X, X-Y, R-X` (in that order), node `Y` is visited at depth 3
but *not* at depth 4 — at depth 4 the depth-first walk reaches `X` along the
long path with only one hop of budget left, and the visited-set check then
blocks the deeper revisit of `X` through the short edge `R-X` that at depth
3 delivered `Y`. -/
theorem c2_counterexample :
    "Y" ∈ (travTop ["R", "a", "b", "X", "Y"]
      [⟨"R", "a", "link"⟩, ⟨"a", "b", "link"⟩, ⟨"b", "X", "link"⟩,
       ⟨"X", "Y", "link"⟩, ⟨"R", "X", "link"⟩] "R" 3).fnodes ∧
    "Y" ∉ (travTop ["R", "a", "b", "X", "Y"]
      [⟨"R", "a", "link"⟩, ⟨"a", "b", "link"⟩, ⟨"b", "X", "link"⟩,
       ⟨"X", "Y", "link"⟩, ⟨"R", "X", "link"⟩] "R" 4).fnodes := by
  exact ⟨by decide, by decide⟩

/-- **C2**, amended.  The node set returned for any depth is a subset of the
full node set; it is *not* in general a subset of the node set returned for
depth `d + 1` (see `c2_counterexample`). -/
theorem c2_nodes_subset_full (ids : List String) (edges : List GEdge) (root : String)
    (depth : Int) :
    ∀ x ∈ (travTop ids edges root depth).fnodes, x ∈ ids := by
  intro x hx
  exact trav_fnodes_sub ids edges depth.toNat root ⟨[], []⟩
    (fun y hy => absurd hy (List.not_mem_nil y)) x hx

/-- Witness for `c2_nodes_subset_full` at a concrete snapshot. -/
theorem c2_nodes_subset_full_witness : "a" ∈ ["a", "b"] :=
  c2_nodes_subset_full ["a", "b"] [⟨"a", "b", "link"⟩] "a" 2 "a" (by decide)

/-- **C3**, counterexample.  Depth 0 does not yield the root: the guard
`depth <= 0` returns before the root is recorded, so the filtered result is
empty. -/
theorem c3_counterexample :
    travTop ["a"] [] "a" 0 = ⟨[], []⟩ ∧
    (travTop ["a"] [] "a" 0).fnodes ≠ ["a"] := by
  exact ⟨by decide, by decide⟩

/-- **C3**, amended.  Any depth `≤ 0` yields the empty node and edge set;
the root (when present in the node set) first appears at depth `≥ 1`. -/
theorem c3_depth_zero_empty (ids : List String) (edges : List GEdge) (root : String)
    (depth : Int) :
    (depth ≤ 0 → travTop ids edges root depth = ⟨[], []⟩) ∧
    (1 ≤ depth → root ∈ ids → root ∈ (travTop ids edges root depth).fnodes) := by
  constructor
  · intro hd
    unfold travTop
    have h0 : depth.toNat = 0 := by omega
    rw [h0]
    rfl
  · intro hd hroot
    unfold travTop
    have h1 : ∃ d : Nat, depth.toNat = d + 1 := ⟨depth.toNat - 1, by omega⟩
    rcases h1 with ⟨d, hd'⟩
    rw [hd']
    exact trav_root_mem ids edges d root ⟨[], []⟩ hroot

/-- Witness for `c3_depth_zero_empty` at concrete depths `-1` and `2`. -/
theorem c3_depth_zero_empty_witness :
    travTop ["a"] [] "a" (-1) = ⟨[], []⟩ ∧
    "a" ∈ (travTop ["a"] [] "a" 2).fnodes :=
  ⟨(c3_depth_zero_empty ["a"] [] "a" (-1)).1 (by decide),
   (c3_depth_zero_empty ["a"] [] "a" 2).2 (by decide) (by decide)⟩

/-- **C4**, counterexample.  The reported match count is *not* the number of
occurrences of the literal query: the query is passed to `re.findall` as a
regular expression.  For query `"."` and content `"a.b"` the document
matches (the literal `.` is a substring), but the reported count is 3 (the
regex `.` matches every character) while the literal count is 1. -/
theorem c4_counterexample :
    docMatch ⟨".", none, 50, "content"⟩ ⟨"d", "a.b", [], true⟩ = true ∧
    searchNotes ⟨".", none, 50, "content"⟩ [⟨"d", "a.b", [], true⟩] =
      SearchOut.ok ⟨".", 1, [⟨"d", 3⟩]⟩ ∧
    reCountI "." "a.b" = 3 ∧ litCountI "." "a.b" = 1 ∧ (3 : Nat) ≠ 1 := by
  exact ⟨by decide, by decide, by decide, by decide, by decide⟩

/-- **C4**, amended.  In body-content mode a document matches iff the query
appears case-insensitively as a literal substring of its raw text
(equivalently, its literal occurrence count is positive), and the reported
match count is the number of case-insensitive matches of the query
interpreted as a *regular expression*; when the query contains no regex
metacharacter the two counts agree. -/
theorem c4_content_match_and_count (q : String) (tg : Option (List String))
    (lim : Nat) (d : Doc) :
    (docMatch ⟨q, tg, lim, "content"⟩ d = true ↔ 0 < litCountI q d.content) ∧
    (mkResult q d).matchCount = reCountI q d.content ∧
    (metaFree q = true → reCountI q d.content = litCountI q d.content) := by
  refine ⟨?_, rfl, fun h => reCountI_eq_litCountI h d.content⟩
  show containsSub (lowerL q.data) (lowerL d.content.data) = true ↔ _
  exact containsSub_iff_litCountI_pos q d.content

/-- Witness for `c4_content_match_and_count`: for the metacharacter-free
query `"ab"` the regex count equals the literal count. -/
theorem c4_content_match_and_count_witness :
    reCountI "ab" "xAbab" = litCountI "ab" "xAbab" :=
  (c4_content_match_and_count "ab" none 50 ⟨"d", "xAbab", [], true⟩).2.2 (by decide)

/-- **C5**, counterexample.  An unknown search mode is not reported as an
error: the handler's `if/elif` chain simply leaves every document
unmatched, and the endpoint returns a successful empty result — here on a
corpus that does contain the query. -/
theorem c5_counterexample :
    searchNotes ⟨"hello", none, 50, "bogus"⟩ [⟨"doc", "hello world", [], true⟩] =
      SearchOut.ok ⟨"hello", 0, []⟩ ∧
    isOk (searchNotes ⟨"hello", none, 50, "bogus"⟩
      [⟨"doc", "hello world", [], true⟩]) = true := by
  exact ⟨by decide, by decide⟩

/-- **C5**, amended.  A search request whose mode is not one of
`content`, `title`, `tags`, `backlinks` yields a *successful* response with
zero matches and an empty result list, not a structured error. -/
theorem c5_unknown_mode_empty_ok (req : SearchReq) (corpus : List Doc)
    (h1 : req.search_type ≠ "content") (h2 : req.search_type ≠ "title")
    (h3 : req.search_type ≠ "tags") (h4 : req.search_type ≠ "backlinks") :
    searchNotes req corpus = SearchOut.ok ⟨req.query, 0, []⟩ :=
  searchNotes_unknown h1 h2 h3 h4 corpus

/-- Witness for `c5_unknown_mode_empty_ok` at the concrete mode `"bogus"`. -/
theorem c5_unknown_mode_empty_ok_witness :
    searchNotes ⟨"hello", none, 50, "bogus"⟩ [⟨"doc", "hello world", [], true⟩] =
      SearchOut.ok ⟨"hello", 0, []⟩ :=
  c5_unknown_mode_empty_ok ⟨"hello", none, 50, "bogus"⟩
    [⟨"doc", "hello world", [], true⟩]
    (by decide) (by decide) (by decide) (by decide)

/-- **C6**, counterexample.  The returned edge list is not induced by the
returned node set: on the snapshot with nodes `R, A` and the single edge
`R → A`, depth 1 returns node set `{R}` but still returns the edge
`R → A`, whose target `A` is not in the returned node set — the edge is
appended *before* the recursive call, which then returns on `depth <= 0`. -/
theorem c6_counterexample :
    travTop ["R", "A"] [⟨"R", "A", "link"⟩] "R" 1 =
      ⟨["R"], [⟨"R", "A", "link"⟩]⟩ ∧
    (⟨"R", "A", "link"⟩ : GEdge) ∈
      (travTop ["R", "A"] [⟨"R", "A", "link"⟩] "R" 1).fedges ∧
    "A" ∉ (travTop ["R", "A"] [⟨"R", "A", "link"⟩] "R" 1).fnodes := by
  exact ⟨by decide, by decide, by decide⟩

/-- **C6**, amended.  Every returned edge is *incident* to the returned node
set (its source or target is returned, though not necessarily both), and
the returned edge list holds no copy of an edge beyond its multiplicity in
the full edge list. -/
theorem c6_incident_no_extra_duplicates (ids : List String) (edges : List GEdge)
    (root : String) (depth : Int) :
    (∀ e ∈ (travTop ids edges root depth).fedges,
      e.source ∈ (travTop ids edges root depth).fnodes ∨
      e.target ∈ (travTop ids edges root depth).fnodes) ∧
    (∀ e : GEdge, (travTop ids edges root depth).fedges.count e ≤ edges.count e) := by
  constructor
  · exact trav_inc ids edges depth.toNat root ⟨[], []⟩
      (fun e he => absurd he (List.not_mem_nil e))
  · exact trav_count ids edges depth.toNat root ⟨[], []⟩ (List.not_mem_nil root)
      (fun e => by simp) (fun e he => absurd he (List.not_mem_nil e))

/-- Witness for `c6_incident_no_extra_duplicates` at a concrete snapshot and
edge. -/
theorem c6_incident_no_extra_duplicates_witness :
    ((⟨"R", "A", "link"⟩ : GEdge).source ∈
        (travTop ["R", "A"] [⟨"R", "A", "link"⟩] "R" 2).fnodes ∨
      (⟨"R", "A", "link"⟩ : GEdge).target ∈
        (travTop ["R", "A"] [⟨"R", "A", "link"⟩] "R" 2).fnodes) ∧
    (travTop ["R", "A"] [⟨"R", "A", "link"⟩] "R" 2).fedges.count
        ⟨"R", "A", "link"⟩ ≤ ([⟨"R", "A", "link"⟩] : List GEdge).count
        ⟨"R", "A", "link"⟩ :=
  ⟨(c6_incident_no_extra_duplicates ["R", "A"] [⟨"R", "A", "link"⟩] "R" 2).1
      ⟨"R", "A", "link"⟩ (by decide),
   (c6_incident_no_extra_duplicates ["R", "A"] [⟨"R", "A", "link"⟩] "R" 2).2
      ⟨"R", "A", "link"⟩⟩

/-- **C7**, counterexample.  The destination identifier is not just "split
on the first `|`": the code also strips surrounding whitespace
(`link.split('|')[0].strip()`).  For the body `[[ A ]]` the captured text is
`" A "`, the specification's destination would be `" A "`, but the built
edge's target is `"A"`. -/
theorem c7_counterexample :
    (buildGraph false [⟨"R", "[[ A ]]", [], true⟩]).2 = [⟨"R", "A", "link"⟩] ∧
    extractLinks "[[ A ]]" = [" A "] ∧
    specCleanLink " A " = " A " ∧
    cleanLink " A " = "A" ∧
    ("A" : String) ≠ " A " := by
  exact ⟨by decide, by decide, by decide, by decide, by decide⟩

/-- **C7**, amended.  The number of `link` edges equals the total count of
`[[...]]` occurrences across the successfully scanned documents (duplicates
retained), and each link edge's destination is the captured text split on
the first `|` *and stripped of surrounding whitespace*. -/
theorem c7_link_edges (inc : Bool) (corpus : List Doc) :
    (((buildGraph inc corpus).2).filter (fun e => e.ty == "link")).length =
      linkCountOf corpus ∧
    (∀ e ∈ (buildGraph inc corpus).2, e.ty = "link" →
      ∃ d ∈ corpus, d.ok = true ∧ ∃ l ∈ extractLinks d.content,
        e = ⟨d.name, cleanLink l, "link"⟩) ∧
    (∀ l : String, cleanLink l = ⟨pyStrip (specCleanLink l).data⟩) := by
  refine ⟨?_, ?_, fun l => rfl⟩
  · unfold buildGraph
    rw [buildGraph_link_count inc corpus ([], [])]
    simp
  · intro e he hty
    unfold buildGraph at he
    rcases buildGraph_link_mem inc corpus ([], []) e he hty with h' | h'
    · cases h'
    · exact h'

/-- Witness for `c7_link_edges` on a concrete two-link document with a tag
node enabled. -/
theorem c7_link_edges_witness :
    (((buildGraph true [⟨"A", "[[B]] and [[B|x]]", ["t"], true⟩]).2).filter
        (fun e => e.ty == "link")).length =
      linkCountOf [⟨"A", "[[B]] and [[B|x]]", ["t"], true⟩] ∧
    ∃ d ∈ [(⟨"A", "[[B]] and [[B|x]]", ["t"], true⟩ : Doc)], d.ok = true ∧
      ∃ l ∈ extractLinks d.content,
        (⟨"A", "B", "link"⟩ : GEdge) = ⟨d.name, cleanLink l, "link"⟩ :=
  ⟨(c7_link_edges true [⟨"A", "[[B]] and [[B|x]]", ["t"], true⟩]).1,
   (c7_link_edges true [⟨"A", "[[B]] and [[B|x]]", ["t"], true⟩]).2.1
      ⟨"A", "B", "link"⟩ (by decide) rfl⟩

/-- **C9**, counterexample.  A tag string equal to a scanned document's name
*does* collide with the document's identifier: with documents `alpha`
(tagged `beta`) and `beta`, scanning `alpha` first creates a tag node
`beta`, which the later document `beta` then overwrites — the final graph
has two nodes, both of type `note`, and no tag-typed node at all, although
a `tag` edge to `beta` was emitted. -/
theorem c9_counterexample :
    buildGraph true [⟨"alpha", "", ["beta"], true⟩, ⟨"beta", "", [], true⟩] =
      ([("alpha", ⟨"alpha", ["beta"], 0, "note"⟩),
        ("beta", ⟨"beta", [], 0, "note"⟩)],
       [⟨"alpha", "beta", "tag"⟩]) ∧
    ((buildGraph true [⟨"alpha", "", ["beta"], true⟩, ⟨"beta", "", [], true⟩]).1.all
      (fun p => p.2.ty == "note")) = true := by
  exact ⟨by decide, by decide⟩

/-- **C9**, amended.  Node identifiers are unique within the graph (the node
mapping has no duplicate keys), but a tag whose string equals a scanned
document's name shares that document's identifier, and the document wins:
every successfully scanned document's name is finally bound to a node of
type `note` (a pre-existing tag node is overwritten; a later tag on an
existing document node is not created). -/
theorem c9_unique_ids_doc_wins (inc : Bool) (corpus : List Doc) :
    (keysOf (buildGraph inc corpus).1).Nodup ∧
    (∀ d ∈ corpus, d.ok = true → noteAt (buildGraph inc corpus).1 d.name) := by
  refine ⟨nodup_keys_buildGraph inc corpus, ?_⟩
  intro d hd hok
  exact noteAt_buildGraph inc corpus ([], []) d hd hok

/-- Witness for `c9_unique_ids_doc_wins` on the colliding corpus. -/
theorem c9_unique_ids_doc_wins_witness :
    (keysOf (buildGraph true
      [⟨"alpha", "", ["beta"], true⟩, ⟨"beta", "", [], true⟩]).1).Nodup ∧
    noteAt (buildGraph true
      [⟨"alpha", "", ["beta"], true⟩, ⟨"beta", "", [], true⟩]).1 "beta" :=
  ⟨(c9_unique_ids_doc_wins true
      [⟨"alpha", "", ["beta"], true⟩, ⟨"beta", "", [], true⟩]).1,
   (c9_unique_ids_doc_wins true
      [⟨"alpha", "", ["beta"], true⟩, ⟨"beta", "", [], true⟩]).2
      ⟨"beta", "", [], true⟩ (by decide) rfl⟩

/-- **C8** (confirmed).  The search response is the stable descending sort
of the scan-order results truncated to the limit: the endpoint returns
exactly the truncated sorted list; the sorted list is ordered by
non-increasing match count; documents with equal match counts keep their
scan order (the sort leaves every equal-count fibre of the list unchanged);
and every kept result has a match count at least that of every dropped
one — truncation after sorting never drops a higher-match result in favor
of a lower-match one. -/
theorem c8_sorted_stable_truncated (req : SearchReq) (corpus : List Doc) :
    searchNotes req corpus = SearchOut.ok ⟨req.query, (rawResults req corpus).length,
      (pySortDesc (rawResults req corpus)).take req.limit⟩ ∧
    (pySortDesc (rawResults req corpus)).Pairwise
      (fun a b => b.matchCount ≤ a.matchCount) ∧
    (∀ m : Nat,
      (pySortDesc (rawResults req corpus)).filter (fun r => r.matchCount == m) =
        (rawResults req corpus).filter (fun r => r.matchCount == m)) ∧
    (∀ x ∈ (pySortDesc (rawResults req corpus)).take req.limit,
      ∀ y ∈ (pySortDesc (rawResults req corpus)).drop req.limit,
        y.matchCount ≤ x.matchCount) := by
  refine ⟨rfl, pairwise_pySortDesc _, fun m => filter_pySortDesc m _, ?_⟩
  exact pairwise_take_drop (pairwise_pySortDesc _) req.limit

/-- Witness for `c8_sorted_stable_truncated`: with limit 1, the kept result
has at least the match count of the dropped one. -/
theorem c8_sorted_stable_truncated_witness :
    (⟨"b", 1⟩ : SearchResult).matchCount ≤ (⟨"a", 2⟩ : SearchResult).matchCount :=
  (c8_sorted_stable_truncated ⟨"x", none, 1, "content"⟩
      [⟨"a", "xx", [], true⟩, ⟨"b", "x", [], true⟩]).2.2.2
    ⟨"a", 2⟩ (by decide) ⟨"b", 1⟩ (by decide)

/-- **C10** (confirmed).  Every returned result's match count is computed by
the same formula in every search mode — the number of case-insensitive
matches of the query, as a regular expression, in the document's raw
content — so a document matched on title, tag, or backlink alone is
returned with count 0 and sorts below every positive-count result; the
concrete title-mode search shows `notebook` returned with count 0 behind
`note-alpha` with count 2. -/
theorem c10_uniform_match_count :
    (∀ (req : SearchReq) (corpus : List Doc) (r : SearchResult),
      r ∈ rawResults req corpus →
      ∃ d, d ∈ corpus ∧ d.ok = true ∧ docMatch req d = true ∧
        r = ⟨d.name, reCountI req.query d.content⟩) ∧
    searchNotes ⟨"note", none, 50, "title"⟩
        [⟨"note-alpha", "a note and a note", [], true⟩,
         ⟨"notebook", "blank", [], true⟩] =
      SearchOut.ok ⟨"note", 2, [⟨"note-alpha", 2⟩, ⟨"notebook", 0⟩]⟩ := by
  exact ⟨rawResults_mem, by decide⟩

/-- Witness for `c10_uniform_match_count`: a title-mode result is built with
the content-regex count formula. -/
theorem c10_uniform_match_count_witness :
    ∃ d, d ∈ [(⟨"notebook", "blank", [], true⟩ : Doc)] ∧ d.ok = true ∧
      docMatch ⟨"note", none, 50, "title"⟩ d = true ∧
      (⟨"notebook", 0⟩ : SearchResult) = ⟨d.name, reCountI "note" d.content⟩ :=
  c10_uniform_match_count.1 ⟨"note", none, 50, "title"⟩
    [⟨"notebook", "blank", [], true⟩] ⟨"notebook", 0⟩ (by decide)
